import Mathlib

/-!
# Superbus: a verified shallow embedding

A shallow embedding of the `Superbus` message bus (`src/superbus.ts`):
its subscription registry, channel expander and dual-mode dispatcher,
together with theorems settling the specification's claims against it.

JS strings are modelled as `List Char`; the `Record<string, Set<Callback>>`
registry is modelled as an association list of channel names to heap
indices of callback sets, so that JS reference semantics (a queued
dispatch closure captures the `Set` object, not a copy) is preserved.
-/

set_option maxHeartbeats 1000000

namespace Superbus

/-- A channel name: the list of characters of a JS string. -/
abbrev Chan := List Char

/-- Identity of a callback (a JS function reference). -/
abbrev CbId := Nat

/-- JS `s.indexOf(sep) !== -1`: `sep` occurs as a contiguous substring of `s`
(for the empty `s`, true exactly when `sep` is itself empty, matching
`''.indexOf('') === 0` and `''.indexOf(x) === -1` for nonempty `x`). -/
def hasSub (sep : Chan) : Chan → Bool
  | [] => sep.isEmpty
  | c :: rest => List.isPrefixOf sep (c :: rest) || hasSub sep rest

/-- JS `s.split(sep, 1)[0]` for nonempty `sep`: the part of `s` strictly
before the first occurrence of `sep`, or all of `s` when `sep` does not
occur. -/
def splitBase (sep : Chan) : Chan → Chan
  | [] => []
  | c :: rest => if List.isPrefixOf sep (c :: rest) then [] else c :: splitBase sep rest

/-- The reserved wildcard channel `'*'`. -/
def star : Chan := ['*']

/-- `Superbus._expandChannelsToListeners`, transcribed from the source:
start from `[channel]`, push the base channel when the separator occurs in
`channel`, and always push `'*'` last (`changed:123 --> [changed:123, changed, *]`). -/
def expandChannelsToListeners (sep : Chan) (channel : Chan) : List Chan :=
  let channels : List Chan := [channel]
  let channels := if hasSub sep channel then channels ++ [splitBase sep channel] else channels
  channels ++ [star]

/-- State of a `Superbus` instance. JS `Set` objects live in a heap `sets`
(indexed by allocation order, so a reference is a heap index); `subs` is
the `Record` from channel name to the `Set` reference it currently holds. -/
structure BusState where
  sets : List (List CbId)
  subs : List (Chan × Nat)
  sep : Chan

/-- Lookup `this._subs[channel]` in the record. -/
def lookupSub (subs : List (Chan × Nat)) (ch : Chan) : Option Nat :=
  match subs with
  | [] => none
  | p :: rest => if p.1 = ch then some p.2 else lookupSub rest ch

/-- Contents of the heap cell `i` (`[]` for a dangling reference). -/
def getSet (sets : List (List CbId)) (i : Nat) : List CbId :=
  sets.getD i []

/-- The callbacks currently registered for `ch`, in `Set` enumeration
(= insertion) order; empty when the record has no entry. -/
def subsOf (st : BusState) (ch : Chan) : List CbId :=
  match lookupSub st.subs ch with
  | none => []
  | some i => getSet st.sets i

/-- One iteration of the loop in `Superbus.on`:
`(this._subs[channel] ??= new Set()).add(callback)`. `Set.add` is a no-op
on an existing member and otherwise appends in insertion order. -/
def onChannel (st : BusState) (ch : Chan) (cb : CbId) : BusState :=
  match lookupSub st.subs ch with
  | some i =>
      let s := getSet st.sets i
      if cb ∈ s then st else { st with sets := st.sets.set i (s ++ [cb]) }
  | none =>
      { st with sets := st.sets ++ [[cb]], subs := st.subs ++ [(ch, st.sets.length)] }

/-- `Superbus.on(channels, callback)`: register the callback under each
channel of the (normalized) channel list, in order. -/
def onChannels (st : BusState) (chs : List Chan) (cb : CbId) : BusState :=
  chs.foldl (fun s ch => onChannel s ch cb) st

/-- One iteration of the unsubscribe thunk returned by `on`: delete the
callback from the channel's set (if any) and prune the record entry when
the set becomes empty. -/
def unsubChannel (st : BusState) (ch : Chan) (cb : CbId) : BusState :=
  match lookupSub st.subs ch with
  | none => st
  | some i =>
      let s := (getSet st.sets i).filter (fun x => x ≠ cb)
      if s.isEmpty then
        { st with sets := st.sets.set i s, subs := st.subs.filter (fun p => p.1 ≠ ch) }
      else
        { st with sets := st.sets.set i s }

/-- The unsubscribe thunk returned by `on(channels, callback)`: it loops
over the same channel list the subscribe call was made with. -/
def unsub (st : BusState) (chs : List Chan) (cb : CbId) : BusState :=
  chs.foldl (fun s ch => unsubChannel s ch cb) st

/-- `Superbus.removeAllSubscriptions()`: `set.clear()` every set reachable
from the record — in place, through the reference — then drop the record. -/
def removeAllSubscriptions (st : BusState) : BusState :=
  { st with sets := st.subs.foldl (fun ss p => ss.set p.2 []) st.sets, subs := [] }

/-- A bus with no subscriptions (a fresh `new Superbus(sep)`). -/
def emptyBus (sep : Chan) : BusState := ⟨[], [], sep⟩

/-- A registry operation, for stating invariants over whole histories. -/
inductive BusOp where
  | subscribe (chs : List Chan) (cb : CbId)
  | unsubscribe (chs : List Chan) (cb : CbId)
  | removeAll

/-- Apply one registry operation. -/
def applyOp (st : BusState) : BusOp → BusState
  | .subscribe chs cb => onChannels st chs cb
  | .unsubscribe chs cb => unsub st chs cb
  | .removeAll => removeAllSubscriptions st

/-- Well-formedness of a bus state, as maintained by the JS runtime:
record keys are distinct (a `Record` has one value per key), the `Set`
objects held by distinct record entries are distinct live objects (indices
in range, pairwise distinct), every registered set is nonempty (pruning)
and duplicate-free (`Set` semantics). -/
structure Inv (st : BusState) : Prop where
  keysNodup : (st.subs.map Prod.fst).Nodup
  sidsNodup : (st.subs.map Prod.snd).Nodup
  sidsLt : ∀ p ∈ st.subs, p.2 < st.sets.length
  nonempty : ∀ p ∈ st.subs, getSet st.sets p.2 ≠ []
  nodupSets : ∀ p ∈ st.subs, (getSet st.sets p.2).Nodup

/-- Observable behaviour of one callback (the JS function a subscriber
registered): whether its synchronous part throws, whether it returns a
`Promise`, and whether that promise rejects. -/
structure CbBeh where
  syncThrows : Bool
  isAsync : Bool
  asyncFails : Bool

/-- An observable event of a dispatch: a callback invoked with a channel
argument, or a callback's promise settling at a level barrier. -/
inductive Ev where
  | call (cb : CbId) (channel : Chan)
  | settle (cb : CbId)
deriving DecidableEq

/-- The inner loop of `sendAndWait` over one listener's callback set:
invoke the callbacks in enumeration order, collecting the promises; a
synchronous throw escapes the loop at once. Returns the invocation events,
the collected promises (as callback ids) and whether the loop aborted. -/
def runLevel (beh : CbId → CbBeh) (channel : Chan) : List CbId → List Ev × List CbId × Bool
  | [] => ([], [], false)
  | cb :: rest =>
    if (beh cb).syncThrows then ([Ev.call cb channel], [], true)
    else
      let r := runLevel beh channel rest
      (Ev.call cb channel :: r.1, (if (beh cb).isAsync then [cb] else []) ++ r.2.1, r.2.2)

/-- The outer loop of `sendAndWait` over the expanded listener list: skip
absent or empty subscriber sets; run a level; on a synchronous throw, or
when `Promise.all` rejects because a collected promise fails, the dispatch
rejects and later levels never run; otherwise all of the level's promises
settle at the barrier before the next level starts. Returns the awaited
event trace and whether the dispatch resolved (`true`) or rejected. -/
def runLevels (beh : CbId → CbBeh) (st : BusState) (channel : Chan) :
    List Chan → List Ev × Bool
  | [] => ([], true)
  | listener :: rest =>
    let cbs := subsOf st listener
    if cbs.isEmpty then runLevels beh st channel rest
    else
      let r := runLevel beh channel cbs
      if r.2.2 then (r.1, false)
      else if r.2.1.any (fun cb => (beh cb).asyncFails) then (r.1, false)
      else
        let r2 := runLevels beh st channel rest
        (r.1 ++ r.2.1.map Ev.settle ++ r2.1, r2.2)

/-- `Superbus.sendAndWait`: dispatch over the expanded listener list. -/
def sendAndWait (beh : CbId → CbBeh) (st : BusState) (channel : Chan) : List Ev × Bool :=
  runLevels beh st channel (expandChannelsToListeners st.sep channel)

/-- The variant of the `sendAndWait` loop restricted to the listeners that
actually dispatch; used to relate the code to its per-level description. -/
def runActive (beh : CbId → CbBeh) (st : BusState) (channel : Chan) :
    List Chan → List Ev × Bool
  | [] => ([], true)
  | listener :: rest =>
    let r := runLevel beh channel (subsOf st listener)
    if r.2.2 then (r.1, false)
    else if r.2.1.any (fun cb => (beh cb).asyncFails) then (r.1, false)
    else
      let r2 := runActive beh st channel rest
      (r.1 ++ r.2.1.map Ev.settle ++ r2.1, r2.2)

/-- The listener-channels of a publish that have a nonempty subscriber
set, in expansion (most-specific-first) order. -/
def activeListeners (st : BusState) (c : Chan) : List Chan :=
  (expandChannelsToListeners st.sep c).filter (fun l => !(subsOf st l).isEmpty)

/-- Spec-side description of one failure-free level: every callback of the
level invoked in enumeration order with the original channel, then every
promise of the level settling before the barrier releases. -/
def levelTrace (beh : CbId → CbBeh) (c : Chan) (cbs : List CbId) : List Ev :=
  cbs.map (fun cb => Ev.call cb c)
    ++ (cbs.filter (fun cb => (beh cb).isAsync)).map Ev.settle

/-- Spec-side description of a failure-free `sendAndWait`: the levels of
`activeListeners`, in order, each complete before the next begins. -/
def specTrace (beh : CbId → CbBeh) (st : BusState) (c : Chan) : List Ev :=
  (activeListeners st c).flatMap (fun l => levelTrace beh c (subsOf st l))

/-- No registered callback throws synchronously, no promise rejects. -/
def NoFail (beh : CbId → CbBeh) : Prop :=
  ∀ cb, (beh cb).syncThrows = false ∧ (beh cb).asyncFails = false

/-- A deferred dispatch unit: the closure passed to `process.nextTick`
captures the `Set` object (heap reference `sid`) and the original channel. -/
structure DUnit where
  sid : Nat
  channel : Chan
deriving DecidableEq

/-- A bus together with the process-wide FIFO `nextTick` task queue. -/
structure SysState where
  bus : BusState
  queue : List DUnit

/-- One iteration of the `sendLater` loop for listener `l`: `continue` when
the subscriber set is absent (`undefined`) or empty, otherwise enqueue a
closure capturing the `Set` reference and the original channel. -/
def unitFor (bus : BusState) (c : Chan) (l : Chan) : Option DUnit :=
  match lookupSub bus.subs l with
  | none => none
  | some sid => if (getSet bus.sets sid).isEmpty then none else some ⟨sid, c⟩

/-- The units `sendLater` enqueues for a publish on `c`: one per expanded
listener whose subscriber set is present and nonempty, in expansion order. -/
def unitsFor (bus : BusState) (c : Chan) : List DUnit :=
  (expandChannelsToListeners bus.sep c).filterMap (unitFor bus c)

/-- The `Set` reference the record currently holds for `l` (`0` only as an
arbitrary default for absent entries; `unitsFor` never uses it). -/
def sidOf (bus : BusState) (l : Chan) : Nat :=
  (lookupSub bus.subs l).getD 0

/-- `Superbus.sendLater`: append one deferred unit per dispatching
listener to the FIFO queue and return; no callback is invoked. -/
def sendLater (sys : SysState) (c : Chan) : SysState :=
  { sys with queue := sys.queue ++ unitsFor sys.bus c }

/-- Draining one unit: the deferred closure iterates the captured set as
it is *now* and invokes each callback with the captured original channel,
without awaiting any promise. -/
def runUnit (sets : List (List CbId)) (u : DUnit) : List Ev :=
  (getSet sets u.sid).map (fun cb => Ev.call cb u.channel)

/-- Draining the whole queue in FIFO order against the current heap. -/
def drainAll (sys : SysState) : List Ev :=
  sys.queue.flatMap (runUnit sys.bus.sets)

/-- `removeAllSubscriptions` on a running system: the queue is untouched. -/
def removeAllSys (sys : SysState) : SysState :=
  { sys with bus := removeAllSubscriptions sys.bus }

/-! Concrete channels, buses and behaviours used by witnesses. -/

/-- The default separator `':'`. -/
def colon : Chan := ":".toList

/-- The channel `"a"`. -/
def chA : Chan := "a".toList

/-- The channel `"b"`. -/
def chB : Chan := "b".toList

/-- The channel `"x"`. -/
def chX : Chan := "x".toList

/-- The channel `"y"`. -/
def chY : Chan := "y".toList

/-- The channel `"changed"`. -/
def chChanged : Chan := "changed".toList

/-- The channel `"changed:12345"`. -/
def chChangedId : Chan := "changed:12345".toList

/-- A behaviour where every callback is synchronous and clean. -/
def behSync : CbId → CbBeh := fun _ => ⟨false, false, false⟩

/-- A behaviour where callback `1` is asynchronous; nothing fails. -/
def behAsync1 : CbId → CbBeh := fun cb => ⟨false, decide (cb = 1), false⟩

/-- A behaviour where callback `1` throws synchronously. -/
def behThrow1 : CbId → CbBeh := fun cb => ⟨decide (cb = 1), false, false⟩

/-- A behaviour where callback `3` is asynchronous and its promise rejects. -/
def behFail3 : CbId → CbBeh := fun cb => ⟨false, decide (cb = 3), decide (cb = 3)⟩

/-- A bus with callbacks `0`, `1`, `2` subscribed to `"x"`, in that order. -/
def stThrow : BusState :=
  onChannels (onChannels (onChannels (emptyBus colon) [chX] 0) [chX] 1) [chX] 2

/-- A bus with callback `3` subscribed to `"y"`. -/
def stFail : BusState := onChannels (emptyBus colon) [chY] 3

/-- A bus with callback `0` subscribed to the wildcard channel. -/
def stStar : BusState := onChannels (emptyBus colon) [star] 0

end Superbus

namespace Superbus

/-! ## Theorems -/

theorem splitBase_append_of_hasSub (sep : Chan) :
    ∀ c : Chan, hasSub sep c = true → ∃ suf, c = splitBase sep c ++ sep ++ suf := by
  intro c
  induction c with
  | nil =>
    intro h
    simp only [hasSub, List.isEmpty_iff] at h
    exact ⟨[], by simp [splitBase, h]⟩
  | cons x rest ih =>
    intro h
    simp only [hasSub, Bool.or_eq_true] at h
    by_cases hp : List.isPrefixOf sep (x :: rest) = true
    · rw [List.isPrefixOf_iff_prefix] at hp
      obtain ⟨suf, hsuf⟩ := hp
      exact ⟨suf, by simp [splitBase, List.isPrefixOf_iff_prefix.mpr ⟨suf, hsuf⟩, hsuf.symm]⟩
    · rcases h with h | h
      · exact absurd h hp
      · obtain ⟨suf, hsuf⟩ := ih h
        refine ⟨suf, ?_⟩
        simp only [splitBase, if_neg hp]
        simp [hsuf.symm]

theorem splitBase_min (sep : Chan) :
    ∀ c p suf : Chan, c = p ++ sep ++ suf → (splitBase sep c).length ≤ p.length := by
  intro c
  induction c with
  | nil => intro p suf _; simp [splitBase]
  | cons x rest ih =>
    intro p suf heq
    by_cases hp : List.isPrefixOf sep (x :: rest) = true
    · simp [splitBase, hp]
    · match p with
      | [] =>
        exfalso
        apply hp
        rw [List.isPrefixOf_iff_prefix]
        exact ⟨suf, by simpa using heq.symm⟩
      | y :: p' =>
        have hx : x = y ∧ rest = p' ++ sep ++ suf := by
          constructor
          · have := congrArg (fun l => List.headD l ' ') heq
            simpa using this
          · have := congrArg List.tail heq
            simpa using this
        simp only [splitBase, if_neg hp, List.length_cons]
        exact Nat.succ_le_succ (ih p' suf hx.2)

/-- C1: for a channel containing the separator, the expander returns exactly
`[c, base c, '*']` where `base c` is the prefix of `c` strictly before the
*first* separator occurrence (it is a prefix followed by the separator, and
is no longer than any other prefix followed by the separator, so later
occurrences never matter); for a channel not containing the separator it
returns exactly `[c, '*']`. -/
theorem expand_spec (sep c : Chan) :
    (hasSub sep c = true →
      expandChannelsToListeners sep c = [c, splitBase sep c, star]
      ∧ (∃ suf, c = splitBase sep c ++ sep ++ suf)
      ∧ (∀ p suf, c = p ++ sep ++ suf → (splitBase sep c).length ≤ p.length))
    ∧ (hasSub sep c = false →
      expandChannelsToListeners sep c = [c, star]) := by
  constructor
  · intro h
    refine ⟨?_, splitBase_append_of_hasSub sep c h, fun p suf hps => splitBase_min sep c p suf hps⟩
    simp [expandChannelsToListeners, h]
  · intro h
    simp [expandChannelsToListeners, h]

theorem expand_spec_witness :
    expandChannelsToListeners colon ("changed:a:b".toList)
      = [("changed:a:b".toList), chChanged, star]
    ∧ expandChannelsToListeners colon ("banana".toList) = [("banana".toList), star] :=
  ⟨((expand_spec colon ("changed:a:b".toList)).1 (by decide)).1,
   (expand_spec colon ("banana".toList)).2 (by decide)⟩

/-! ### Heap and record lemmas -/

theorem getSet_set_self (sets : List (List CbId)) (i : Nat) (v : List CbId)
    (h : i < sets.length) : getSet (sets.set i v) i = v := by
  simp [getSet, List.getD_eq_getElem?_getD, List.getElem?_set_self h]

theorem getSet_set_ne (sets : List (List CbId)) (i j : Nat) (v : List CbId)
    (h : i ≠ j) : getSet (sets.set i v) j = getSet sets j := by
  simp [getSet, List.getD_eq_getElem?_getD, List.getElem?_set_ne h]

theorem set_getSet_self (sets : List (List CbId)) (i : Nat) :
    sets.set i (getSet sets i) = sets := by
  rcases Nat.lt_or_ge i sets.length with h | h
  · apply List.ext_getElem?
    intro n
    by_cases hn : n = i
    · subst hn
      rw [List.getElem?_set_self h, getSet, List.getD_eq_getElem?_getD,
        List.getElem?_eq_getElem h]
      rfl
    · rw [List.getElem?_set_ne (fun he => hn he.symm)]
  · exact List.set_eq_of_length_le h

theorem getSet_append_lt (sets more : List (List CbId)) (i : Nat)
    (h : i < sets.length) : getSet (sets ++ more) i = getSet sets i := by
  simp [getSet, List.getD_eq_getElem?_getD, List.getElem?_append_left h]

theorem getSet_append_self (sets : List (List CbId)) (v : List CbId) :
    getSet (sets ++ [v]) sets.length = v := by
  simp [getSet, List.getD_eq_getElem?_getD]

theorem length_le_getSet_eq_nil (sets : List (List CbId)) (i : Nat)
    (h : sets.length ≤ i) : getSet sets i = [] := by
  simp [getSet, List.getD_eq_getElem?_getD, List.getElem?_eq_none h]

theorem lookupSub_mem {subs : List (Chan × Nat)} {ch : Chan} {i : Nat}
    (h : lookupSub subs ch = some i) : (ch, i) ∈ subs := by
  induction subs with
  | nil => simp [lookupSub] at h
  | cons p rest ih =>
    by_cases hp : p.1 = ch
    · simp only [lookupSub, if_pos hp, Option.some.injEq] at h
      have hpe : p = (ch, i) := by
        cases p
        simp_all
      exact List.mem_cons.mpr (Or.inl hpe.symm)
    · simp only [lookupSub, if_neg hp] at h
      exact List.mem_cons_of_mem _ (ih h)

theorem lookupSub_eq_none {subs : List (Chan × Nat)} {ch : Chan}
    (h : lookupSub subs ch = none) : ∀ i, (ch, i) ∉ subs := by
  induction subs with
  | nil => simp
  | cons p rest ih =>
    by_cases hp : p.1 = ch
    · simp [lookupSub, if_pos hp] at h
    · simp only [lookupSub, if_neg hp] at h
      intro i hi
      rcases List.mem_cons.mp hi with he | hm
      · exact hp (by rw [← he])
      · exact ih h i hm

theorem lookupSub_append (l₁ l₂ : List (Chan × Nat)) (ch : Chan) :
    lookupSub (l₁ ++ l₂) ch
      = match lookupSub l₁ ch with
        | some i => some i
        | none => lookupSub l₂ ch := by
  induction l₁ with
  | nil => simp [lookupSub]
  | cons p rest ih =>
    by_cases hp : p.1 = ch
    · simp [lookupSub, if_pos hp]
    · simpa [lookupSub, if_neg hp] using ih

theorem lookupSub_filter_self (subs : List (Chan × Nat)) (ch : Chan) :
    lookupSub (subs.filter (fun p => p.1 ≠ ch)) ch = none := by
  induction subs with
  | nil => simp [lookupSub]
  | cons p rest ih =>
    by_cases hp : p.1 = ch
    · simpa [List.filter, hp] using ih
    · simpa [List.filter, hp, lookupSub, if_neg hp] using ih

theorem lookupSub_filter_ne (subs : List (Chan × Nat)) (ch ch' : Chan)
    (h : ch' ≠ ch) :
    lookupSub (subs.filter (fun p => p.1 ≠ ch)) ch' = lookupSub subs ch' := by
  induction subs with
  | nil => simp
  | cons p rest ih =>
    by_cases hp : p.1 = ch
    · have hne : ch ≠ ch' := fun he => h he.symm
      simpa [List.filter, hp, lookupSub, hne] using ih
    · by_cases hp' : p.1 = ch'
      · simp [List.filter, hp, lookupSub, if_pos hp']
      · simpa [List.filter, hp, lookupSub, if_neg hp'] using ih

theorem snd_inj {subs : List (Chan × Nat)} (hn : (subs.map Prod.snd).Nodup)
    {p q : Chan × Nat} (hp : p ∈ subs) (hq : q ∈ subs) (h : p.2 = q.2) : p = q :=
  List.inj_on_of_nodup_map hn hp hq h

/-! ### Invariant preservation (registry well-formedness) -/

theorem inv_onChannel (st : BusState) (ch : Chan) (cb : CbId) (h : Inv st) :
    Inv (onChannel st ch cb) := by
  unfold onChannel
  cases hl : lookupSub st.subs ch with
  | some i =>
    have hmem : (ch, i) ∈ st.subs := lookupSub_mem hl
    have hi : i < st.sets.length := h.sidsLt _ hmem
    by_cases hcb : cb ∈ getSet st.sets i
    · simpa [hcb] using h
    · simp only [hcb, if_false]
      refine ⟨h.keysNodup, h.sidsNodup, ?_, ?_, ?_⟩
      · intro p hp
        simpa using h.sidsLt p hp
      · intro p hp
        by_cases hpi : p.2 = i
        · rw [hpi, getSet_set_self _ _ _ hi]
          simp
        · rw [getSet_set_ne _ _ _ _ (fun he => hpi he.symm)]
          exact h.nonempty p hp
      · intro p hp
        by_cases hpi : p.2 = i
        · rw [hpi, getSet_set_self _ _ _ hi]
          refine List.Nodup.append (h.nodupSets _ hmem) (by simp) ?_
          intro a ha hb
          simp only [List.mem_singleton] at hb
          exact hcb (hb ▸ ha)
        · rw [getSet_set_ne _ _ _ _ (fun he => hpi he.symm)]
          exact h.nodupSets p hp
  | none =>
    refine ⟨?_, ?_, ?_, ?_, ?_⟩
    · simp only [List.map_append]
      rw [List.nodup_append]
      refine ⟨h.keysNodup, by simp, ?_⟩
      intro a ha
      simp only [List.map_cons, List.map_nil, List.mem_singleton]
      intro he
      obtain ⟨p, hp, hpa⟩ := List.mem_map.mp ha
      exact lookupSub_eq_none hl p.2 (by rw [← he, ← hpa]; exact hp)
    · simp only [List.map_append]
      rw [List.nodup_append]
      refine ⟨h.sidsNodup, by simp, ?_⟩
      intro a ha
      simp only [List.map_cons, List.map_nil, List.mem_singleton]
      obtain ⟨p, hp, hpa⟩ := List.mem_map.mp ha
      have := h.sidsLt p hp
      omega
    · intro p hp
      rcases List.mem_append.mp hp with hm | hm
      · have := h.sidsLt p hm
        simp only [List.length_append, List.length_cons, List.length_nil]
        omega
      · simp only [List.mem_singleton] at hm
        subst hm
        simp
    · intro p hp
      rcases List.mem_append.mp hp with hm | hm
      · rw [getSet_append_lt _ _ _ (h.sidsLt p hm)]
        exact h.nonempty p hm
      · simp only [List.mem_singleton] at hm
        subst hm
        simp [getSet_append_self]
    · intro p hp
      rcases List.mem_append.mp hp with hm | hm
      · rw [getSet_append_lt _ _ _ (h.sidsLt p hm)]
        exact h.nodupSets p hm
      · simp only [List.mem_singleton] at hm
        subst hm
        simp [getSet_append_self]

theorem inv_unsubChannel (st : BusState) (ch : Chan) (cb : CbId) (h : Inv st) :
    Inv (unsubChannel st ch cb) := by
  unfold unsubChannel
  cases hl : lookupSub st.subs ch with
  | none => exact h
  | some i =>
    dsimp only
    have hmem : (ch, i) ∈ st.subs := lookupSub_mem hl
    have hi : i < st.sets.length := h.sidsLt _ hmem
    by_cases he : ((getSet st.sets i).filter (fun x => x ≠ cb)).isEmpty
    · rw [if_pos he]
      refine ⟨?_, ?_, ?_, ?_, ?_⟩
      · exact ((List.filter_sublist _).map Prod.fst).nodup h.keysNodup
      · exact ((List.filter_sublist _).map Prod.snd).nodup h.sidsNodup
      · intro p hp
        simpa using h.sidsLt p (List.mem_of_mem_filter hp)
      · intro p hp
        have hpm := List.mem_filter.mp hp
        have hne : p.1 ≠ ch := by simpa using hpm.2
        have hpi : p.2 ≠ i := by
          intro hpi
          exact hne (congrArg Prod.fst (snd_inj h.sidsNodup hpm.1 hmem hpi))
        rw [getSet_set_ne _ _ _ _ (fun hee => hpi hee.symm)]
        exact h.nonempty p hpm.1
      · intro p hp
        have hpm := List.mem_filter.mp hp
        have hne : p.1 ≠ ch := by simpa using hpm.2
        have hpi : p.2 ≠ i := by
          intro hpi
          exact hne (congrArg Prod.fst (snd_inj h.sidsNodup hpm.1 hmem hpi))
        rw [getSet_set_ne _ _ _ _ (fun hee => hpi hee.symm)]
        exact h.nodupSets p hpm.1
    · rw [if_neg he]
      refine ⟨h.keysNodup, h.sidsNodup, ?_, ?_, ?_⟩
      · intro p hp
        simpa using h.sidsLt p hp
      · intro p hp
        by_cases hpi : p.2 = i
        · rw [hpi, getSet_set_self _ _ _ hi]
          intro hnil
          rw [hnil] at he
          exact he rfl
        · rw [getSet_set_ne _ _ _ _ (fun hee => hpi hee.symm)]
          exact h.nonempty p hp
      · intro p hp
        by_cases hpi : p.2 = i
        · rw [hpi, getSet_set_self _ _ _ hi]
          exact (List.filter_sublist _).nodup (h.nodupSets _ hmem)
        · rw [getSet_set_ne _ _ _ _ (fun hee => hpi hee.symm)]
          exact h.nodupSets p hp

theorem inv_removeAllSubscriptions (st : BusState) :
    Inv (removeAllSubscriptions st) := by
  refine ⟨by simp [removeAllSubscriptions], by simp [removeAllSubscriptions], ?_, ?_, ?_⟩
  all_goals intro p hp; simp [removeAllSubscriptions] at hp

theorem inv_onChannels (st : BusState) (chs : List Chan) (cb : CbId) (h : Inv st) :
    Inv (onChannels st chs cb) := by
  induction chs generalizing st with
  | nil => exact h
  | cons ch rest ih => exact ih _ (inv_onChannel st ch cb h)

theorem inv_unsub (st : BusState) (chs : List Chan) (cb : CbId) (h : Inv st) :
    Inv (unsub st chs cb) := by
  induction chs generalizing st with
  | nil => exact h
  | cons ch rest ih => exact ih _ (inv_unsubChannel st ch cb h)

theorem inv_applyOp (st : BusState) (op : BusOp) (h : Inv st) : Inv (applyOp st op) := by
  cases op with
  | subscribe chs cb => exact inv_onChannels st chs cb h
  | unsubscribe chs cb => exact inv_unsub st chs cb h
  | removeAll => exact inv_removeAllSubscriptions st

theorem inv_emptyBus (sep : Chan) : Inv (emptyBus sep) := by
  refine ⟨by simp [emptyBus], by simp [emptyBus], ?_, ?_, ?_⟩
  all_goals intro p hp; simp [emptyBus] at hp

theorem inv_foldl_applyOp (st : BusState) (ops : List BusOp) (h : Inv st) :
    Inv (ops.foldl applyOp st) := by
  induction ops generalizing st with
  | nil => exact h
  | cons op rest ih => exact ih _ (inv_applyOp st op h)

/-- C9: after any sequence of registry operations (subscribe, handle
invocation, unsubscribe-all) starting from a fresh bus, every channel key
present in the registry maps to a nonempty callback set — empty sets are
pruned as soon as their last member is removed, so the registry never
holds an empty entry. -/
theorem registry_never_empty (sep : Chan) (ops : List BusOp) :
    ∀ p ∈ (ops.foldl applyOp (emptyBus sep)).subs,
      getSet (ops.foldl applyOp (emptyBus sep)).sets p.2 ≠ [] :=
  (inv_foldl_applyOp (emptyBus sep) ops (inv_emptyBus sep)).nonempty

theorem registry_never_empty_witness :
    getSet ((([BusOp.subscribe [chA] 0].foldl applyOp (emptyBus colon))).sets) 0 ≠ [] :=
  registry_never_empty colon [BusOp.subscribe [chA] 0] (chA, 0) (by decide)

/-! ### Unsubscribe handles -/

theorem subsOf_mk (sets : List (List CbId)) (subs : List (Chan × Nat)) (sep ch : Chan) :
    subsOf ⟨sets, subs, sep⟩ ch
      = match lookupSub subs ch with
        | none => []
        | some i => getSet sets i := rfl

theorem subsOf_unsubChannel (st : BusState) (ch : Chan) (cb : CbId) (h : Inv st) (ch' : Chan) :
    subsOf (unsubChannel st ch cb) ch'
      = if ch' = ch then (subsOf st ch').filter (fun x => x ≠ cb) else subsOf st ch' := by
  unfold unsubChannel
  cases hl : lookupSub st.subs ch with
  | none =>
    by_cases hc : ch' = ch
    · subst hc
      rw [if_pos rfl]
      simp [subsOf, hl]
    · rw [if_neg hc]
  | some i =>
    dsimp only
    have hmem : (ch, i) ∈ st.subs := lookupSub_mem hl
    have hi : i < st.sets.length := h.sidsLt _ hmem
    have hsub : subsOf st ch = getSet st.sets i := by simp [subsOf, hl]
    by_cases he : ((getSet st.sets i).filter (fun x => x ≠ cb)).isEmpty
    · rw [if_pos he]
      have hempty : (getSet st.sets i).filter (fun x => x ≠ cb) = [] :=
        List.isEmpty_iff.mp he
      by_cases hc : ch' = ch
      · subst hc
        rw [if_pos rfl, subsOf_mk, lookupSub_filter_self]
        dsimp only
        rw [hsub, hempty]
      · rw [if_neg hc, subsOf_mk, lookupSub_filter_ne _ _ _ hc]
        cases hl' : lookupSub st.subs ch' with
        | none => simp [subsOf, hl']
        | some j =>
          dsimp only
          have hj : (ch', j) ∈ st.subs := lookupSub_mem hl'
          have hne : j ≠ i := by
            intro hji
            exact hc (congrArg Prod.fst (snd_inj h.sidsNodup hj hmem hji))
          rw [getSet_set_ne _ _ _ _ (Ne.symm hne)]
          simp [subsOf, hl']
    · rw [if_neg he]
      by_cases hc : ch' = ch
      · subst hc
        rw [if_pos rfl, subsOf_mk, hl]
        dsimp only
        rw [getSet_set_self _ _ _ hi, hsub]
      · rw [if_neg hc, subsOf_mk]
        cases hl' : lookupSub st.subs ch' with
        | none => simp [subsOf, hl']
        | some j =>
          dsimp only
          have hj : (ch', j) ∈ st.subs := lookupSub_mem hl'
          have hne : j ≠ i := by
            intro hji
            exact hc (congrArg Prod.fst (snd_inj h.sidsNodup hj hmem hji))
          rw [getSet_set_ne _ _ _ _ (Ne.symm hne)]
          simp [subsOf, hl']

theorem filter_ne_idem (l : List CbId) (cb : CbId) :
    (l.filter (fun x => x ≠ cb)).filter (fun x => x ≠ cb) = l.filter (fun x => x ≠ cb) := by
  rw [List.filter_filter]
  simp

theorem subsOf_unsub (st : BusState) (chs : List Chan) (cb : CbId) (h : Inv st) (ch' : Chan) :
    subsOf (unsub st chs cb) ch'
      = if ch' ∈ chs then (subsOf st ch').filter (fun x => x ≠ cb) else subsOf st ch' := by
  induction chs generalizing st with
  | nil => simp [unsub]
  | cons ch rest ih =>
    have hstep : unsub st (ch :: rest) cb = unsub (unsubChannel st ch cb) rest cb := rfl
    rw [hstep, ih _ (inv_unsubChannel st ch cb h),
      subsOf_unsubChannel st ch cb h ch']
    by_cases hm : ch' ∈ rest
    · by_cases hc : ch' = ch
      · simp [hm, hc, filter_ne_idem]
      · simp [hm, hc]
    · by_cases hc : ch' = ch
      · simp [hm, hc]
      · simp [hm, hc, List.mem_cons]

theorem unsubChannel_id (st : BusState) (ch : Chan) (cb : CbId) (h : Inv st)
    (hcb : cb ∉ subsOf st ch) : unsubChannel st ch cb = st := by
  unfold unsubChannel
  cases hl : lookupSub st.subs ch with
  | none => rfl
  | some i =>
    dsimp only
    have hmem : (ch, i) ∈ st.subs := lookupSub_mem hl
    have hs : subsOf st ch = getSet st.sets i := by simp [subsOf, hl]
    have hfilter : (getSet st.sets i).filter (fun x => x ≠ cb) = getSet st.sets i := by
      apply List.filter_eq_self.mpr
      intro a ha
      rw [decide_eq_true_eq]
      intro hae
      apply hcb
      rw [hs]
      exact hae ▸ ha
    rw [hfilter]
    have hne : (getSet st.sets i).isEmpty ≠ true := by
      intro he
      exact h.nonempty _ hmem (List.isEmpty_iff.mp he)
    rw [if_neg hne, set_getSet_self]

theorem unsub_id (st : BusState) (chs : List Chan) (cb : CbId) (h : Inv st)
    (hcb : ∀ ch ∈ chs, cb ∉ subsOf st ch) : unsub st chs cb = st := by
  induction chs with
  | nil => rfl
  | cons ch rest ih =>
    have hstep : unsub st (ch :: rest) cb = unsub (unsubChannel st ch cb) rest cb := rfl
    rw [hstep, unsubChannel_id st ch cb h (hcb ch (List.mem_cons_self _ _))]
    exact ih (fun ch' hm => hcb ch' (List.mem_cons_of_mem _ hm))

/-- C6: invoking the handle returned by a subscribe call removes the
callback from exactly the channels passed to that call — for any channel
in the list the callback is filtered out of its set, any other channel's
set is untouched — and invoking the same handle a second time is a no-op
that leaves the whole registry state unchanged. -/
theorem handle_unsub_exact (st : BusState) (chs : List Chan) (cb : CbId) (h : Inv st) :
    (∀ ch', subsOf (unsub st chs cb) ch'
        = if ch' ∈ chs then (subsOf st ch').filter (fun x => x ≠ cb) else subsOf st ch')
    ∧ unsub (unsub st chs cb) chs cb = unsub st chs cb := by
  constructor
  · exact subsOf_unsub st chs cb h
  · apply unsub_id _ _ _ (inv_unsub st chs cb h)
    intro ch hm
    rw [subsOf_unsub st chs cb h ch, if_pos hm]
    intro hmem
    have := (List.mem_filter.mp hmem).2
    simp at this

theorem handle_unsub_exact_witness :
    subsOf (unsub (onChannels (emptyBus colon) [chA, chB] 0) [chA, chB] 0) chA
      = (subsOf (onChannels (emptyBus colon) [chA, chB] 0) chA).filter (fun x => x ≠ 0)
    ∧ unsub (unsub (onChannels (emptyBus colon) [chA, chB] 0) [chA, chB] 0) [chA, chB] 0
      = unsub (onChannels (emptyBus colon) [chA, chB] 0) [chA, chB] 0 := by
  have hw := handle_unsub_exact (onChannels (emptyBus colon) [chA, chB] 0) [chA, chB] 0
    ⟨by decide, by decide, by decide, by decide, by decide⟩
  refine ⟨?_, hw.2⟩
  have := hw.1 chA
  rwa [if_pos (by decide : chA ∈ [chA, chB])] at this

/-! ### The immediate-and-awaited dispatcher -/

theorem runLevel_noThrow (beh : CbId → CbBeh) (c : Chan) (cbs : List CbId)
    (h : ∀ cb ∈ cbs, (beh cb).syncThrows = false) :
    runLevel beh c cbs
      = (cbs.map (fun cb => Ev.call cb c),
         cbs.filter (fun cb => (beh cb).isAsync), false) := by
  induction cbs with
  | nil => rfl
  | cons cb rest ih =>
    have hcb : (beh cb).syncThrows = false := h cb (List.mem_cons_self _ _)
    rw [runLevel, if_neg (by simp [hcb]), ih (fun x hx => h x (List.mem_cons_of_mem _ hx))]
    by_cases ha : (beh cb).isAsync
    · simp [List.filter_cons, ha]
    · simp [List.filter_cons, ha]

theorem runLevels_eq_runActive (beh : CbId → CbBeh) (st : BusState) (c : Chan)
    (L : List Chan) :
    runLevels beh st c L
      = runActive beh st c (L.filter (fun l => !(subsOf st l).isEmpty)) := by
  induction L with
  | nil => rfl
  | cons l rest ih =>
    by_cases he : (subsOf st l).isEmpty
    · have hb : ¬((!(subsOf st l).isEmpty) = true) := by
        rw [he]
        simp
      rw [runLevels, if_pos he, ih, List.filter_cons, if_neg hb]
    · have hb : (!(subsOf st l).isEmpty) = true := by
        cases hcase : (subsOf st l).isEmpty
        · rfl
        · exact absurd hcase he
      rw [runLevels, if_neg he, List.filter_cons, if_pos hb, runActive, ih]

theorem runActive_noFail (beh : CbId → CbBeh) (st : BusState) (c : Chan)
    (L : List Chan) (h : NoFail beh) :
    runActive beh st c L
      = (L.flatMap (fun l => levelTrace beh c (subsOf st l)), true) := by
  induction L with
  | nil => rfl
  | cons l rest ih =>
    rw [runActive, runLevel_noThrow beh c _ (fun cb _ => (h cb).1)]
    have hany : ((subsOf st l).filter (fun cb => (beh cb).isAsync)).any
        (fun cb => (beh cb).asyncFails) = false := by
      rw [List.any_eq_false]
      intro cb _
      simp [(h cb).2]
    simp only [hany, Bool.false_eq_true, if_false, ih, levelTrace, List.flatMap_cons,
      List.append_assoc]

theorem sendAndWait_noFail (beh : CbId → CbBeh) (st : BusState) (c : Chan)
    (h : NoFail beh) :
    sendAndWait beh st c = (specTrace beh st c, true) := by
  rw [sendAndWait, runLevels_eq_runActive, runActive_noFail _ _ _ _ h]
  rfl

/-- C2: under failure-free callbacks, a `sendAndWait` publish runs level by
level in expansion order: the trace is exactly the concatenation, over the
nonempty listener-channels in most-specific-first order, of that level's
synchronous invocations in enumeration order followed by the settling of
all of that level's deferred results — so every call and every settle of a
level precedes every call of the next level — and the operation resolves
(`true`) only after all of them. -/
theorem sendAndWait_barrier_order (beh : CbId → CbBeh) (st : BusState) (c : Chan)
    (h : NoFail beh) :
    sendAndWait beh st c = (specTrace beh st c, true) :=
  sendAndWait_noFail beh st c h

theorem sendAndWait_barrier_order_witness :
    sendAndWait behAsync1
      (onChannels (onChannels (onChannels (emptyBus colon) [chChanged] 0) [chChangedId] 1)
        [star] 2)
      chChangedId
      = (specTrace behAsync1
          (onChannels (onChannels (onChannels (emptyBus colon) [chChanged] 0) [chChangedId] 1)
            [star] 2)
          chChangedId, true) :=
  sendAndWait_barrier_order behAsync1 _ chChangedId (fun _ => ⟨rfl, rfl⟩)

/-! ### The channel argument delivered to callbacks -/

theorem call_mem_runLevel (beh : CbId → CbBeh) (c : Chan) (cbs : List CbId)
    (cb : CbId) (ch : Chan) :
    Ev.call cb ch ∈ (runLevel beh c cbs).1 → ch = c := by
  induction cbs with
  | nil => intro h; simp [runLevel] at h
  | cons x rest ih =>
    intro h
    rw [runLevel] at h
    by_cases hx : (beh x).syncThrows = true
    · rw [if_pos hx] at h
      simp only [List.mem_singleton, Ev.call.injEq] at h
      exact h.2
    · rw [if_neg hx] at h
      dsimp only at h
      rcases List.mem_cons.mp h with he | hm
      · injection he with h1 h2
      · exact ih hm

theorem call_not_mem_settles (cb : CbId) (ch : Chan) (l : List CbId) :
    Ev.call cb ch ∉ l.map Ev.settle := by
  intro h
  obtain ⟨x, _, hx⟩ := List.mem_map.mp h
  exact Ev.noConfusion hx

theorem call_mem_runLevels (beh : CbId → CbBeh) (st : BusState) (c : Chan)
    (L : List Chan) (cb : CbId) (ch : Chan) :
    Ev.call cb ch ∈ (runLevels beh st c L).1 → ch = c := by
  induction L with
  | nil => intro h; simp [runLevels] at h
  | cons l rest ih =>
    intro h
    rw [runLevels] at h
    by_cases he : (subsOf st l).isEmpty = true
    · rw [if_pos he] at h
      exact ih h
    · rw [if_neg he] at h
      dsimp only at h
      by_cases ht : (runLevel beh c (subsOf st l)).2.2 = true
      · rw [if_pos ht] at h
        exact call_mem_runLevel beh c _ cb ch h
      · rw [if_neg ht] at h
        by_cases ha : ((runLevel beh c (subsOf st l)).2.1.any
            (fun cb => (beh cb).asyncFails)) = true
        · rw [if_pos ha] at h
          exact call_mem_runLevel beh c _ cb ch h
        · rw [if_neg ha] at h
          dsimp only at h
          rcases List.mem_append.mp h with h1 | h2
          · rcases List.mem_append.mp h1 with h11 | h12
            · exact call_mem_runLevel beh c _ cb ch h11
            · exact absurd h12 (call_not_mem_settles cb ch _)
          · exact ih h2

theorem unitsFor_mem (bus : BusState) (c : Chan) (u : DUnit) (h : u ∈ unitsFor bus c) :
    u.channel = c ∧ u.sid ∈ bus.subs.map Prod.snd := by
  obtain ⟨l, _, hsome⟩ := List.mem_filterMap.mp h
  unfold unitFor at hsome
  cases hlk : lookupSub bus.subs l with
  | none => rw [hlk] at hsome; simp at hsome
  | some sid =>
    rw [hlk] at hsome
    dsimp only at hsome
    by_cases hemp : (getSet bus.sets sid).isEmpty = true
    · rw [if_pos hemp] at hsome
      simp at hsome
    · rw [if_neg hemp] at hsome
      have hu : u = ⟨sid, c⟩ := (Option.some.inj hsome).symm
      subst hu
      exact ⟨rfl, List.mem_map.mpr ⟨(l, sid), lookupSub_mem hlk, rfl⟩⟩

/-- C3: every callback that is invoked by a publish — whether through
`sendAndWait` or by the drain of a unit deferred by `sendLater`, and
whether it is registered under the exact channel, the base channel or the
wildcard — receives the full original channel string as its first
argument. -/
theorem callback_gets_full_channel (beh : CbId → CbBeh) (st : BusState) (c : Chan)
    (sys : SysState) :
    (∀ cb ch, Ev.call cb ch ∈ (sendAndWait beh st c).1 → ch = c)
    ∧ (sys.queue = [] →
        ∀ cb ch, Ev.call cb ch ∈ drainAll (sendLater sys c) → ch = c) := by
  constructor
  · intro cb ch h
    exact call_mem_runLevels beh st c _ cb ch h
  · intro hq cb ch h
    unfold drainAll sendLater at h
    dsimp only at h
    rw [hq, List.nil_append] at h
    obtain ⟨u, hu, hev⟩ := List.mem_flatMap.mp h
    obtain ⟨x, _, hxe⟩ := List.mem_map.mp hev
    injection hxe with h1 h2
    rw [← h2]
    exact (unitsFor_mem _ _ _ hu).1

theorem callback_gets_full_channel_witness :
    chA = chA ∧ chA = chA := by
  have h := callback_gets_full_channel behSync (onChannels (emptyBus colon) [chA] 0) chA
    ⟨onChannels (emptyBus colon) [chA] 0, []⟩
  exact ⟨h.1 0 chA (by decide), h.2 rfl 0 chA (by decide)⟩

/-! ### Deferred dispatch: `sendLater` and the task queue -/

theorem unitFor_eq (bus : BusState) (c l : Chan) :
    unitFor bus c l
      = if (subsOf bus l).isEmpty then none else some ⟨sidOf bus l, c⟩ := by
  unfold unitFor sidOf
  cases hlk : lookupSub bus.subs l with
  | none => simp [subsOf, hlk]
  | some sid =>
    dsimp only
    have hsub : subsOf bus l = getSet bus.sets sid := by simp [subsOf, hlk]
    rw [hsub]
    rfl

theorem unitsFor_eq_active (bus : BusState) (c : Chan) :
    unitsFor bus c = (activeListeners bus c).map (fun l => ⟨sidOf bus l, c⟩) := by
  unfold unitsFor activeListeners
  induction expandChannelsToListeners bus.sep c with
  | nil => rfl
  | cons l rest ih =>
    rw [List.filterMap_cons, List.filter_cons, unitFor_eq]
    by_cases hemp : (subsOf bus l).isEmpty = true
    · rw [if_pos hemp, if_neg (by simp [hemp])]
      exact ih
    · rw [if_neg hemp, if_pos (by simp [Bool.not_eq_true] at hemp; simp [hemp]),
        List.map_cons, ih]

/-- C4: `sendLater` returns before any callback runs — its only effect is
on the queue, the registry and heap are untouched and no invocation event
exists — appending exactly one deferred unit per expanded listener-channel
with a nonempty subscriber set, in expansion order, to the strictly-FIFO
queue; two successive `sendLater` calls append their units in call order. -/
theorem sendLater_defers_in_order (sys : SysState) (c1 c2 : Chan) :
    (sendLater sys c1).bus = sys.bus
    ∧ (sendLater sys c1).queue = sys.queue ++ unitsFor sys.bus c1
    ∧ unitsFor sys.bus c1
        = (activeListeners sys.bus c1).map (fun l => ⟨sidOf sys.bus l, c1⟩)
    ∧ (sendLater (sendLater sys c1) c2).queue
        = sys.queue ++ unitsFor sys.bus c1 ++ unitsFor sys.bus c2 :=
  ⟨rfl, rfl, unitsFor_eq_active _ _, rfl⟩

/-! ### `removeAllSubscriptions` and already-queued units -/

theorem getSet_foldl_clear (subs : List (Chan × Nat)) (sets : List (List CbId)) (sid : Nat)
    (h : sid ∈ subs.map Prod.snd ∨ getSet sets sid = []) :
    getSet (subs.foldl (fun ss p => ss.set p.2 []) sets) sid = [] := by
  induction subs generalizing sets with
  | nil =>
    rcases h with h | h
    · simp at h
    · exact h
  | cons p rest ih =>
    show getSet (rest.foldl _ (sets.set p.2 [])) sid = []
    apply ih
    rcases h with h | h
    · have h' : sid = p.2 ∨ sid ∈ rest.map Prod.snd := by simpa using h
      rcases h' with he | hm
      · right
        rw [he]
        by_cases hlen : p.2 < sets.length
        · rw [getSet_set_self _ _ _ hlen]
        · rw [List.set_eq_of_length_le (Nat.le_of_not_lt hlen)]
          exact length_le_getSet_eq_nil _ _ (Nat.le_of_not_lt hlen)
      · left
        exact hm
    · right
      by_cases hps : p.2 = sid
      · subst hps
        by_cases hlen : p.2 < sets.length
        · rw [getSet_set_self _ _ _ hlen]
        · rw [List.set_eq_of_length_le (Nat.le_of_not_lt hlen)]
          exact h
      · rw [getSet_set_ne _ _ _ _ hps]
        exact h

/-- C5 (amended): a unit deferred by `sendLater` keeps the `Set` reference
captured at queue time, but `removeAllSubscriptions` clears those very set
objects in place (`set.clear()`), so a drain after the removal iterates
empty sets and invokes no callback at all. -/
theorem drain_after_removeAll (sys : SysState) (c : Chan) (h : sys.queue = []) :
    drainAll (removeAllSys (sendLater sys c)) = [] := by
  unfold drainAll removeAllSys sendLater removeAllSubscriptions
  dsimp only
  rw [h, List.nil_append]
  rw [List.flatMap_eq_nil_iff]
  intro u hu
  unfold runUnit
  rw [getSet_foldl_clear _ _ _ (Or.inl (unitsFor_mem _ _ _ hu).2)]
  rfl

theorem drain_after_removeAll_witness :
    drainAll (removeAllSys (sendLater ⟨onChannels (emptyBus colon) [chA] 0, []⟩ chA)) = [] :=
  drain_after_removeAll ⟨onChannels (emptyBus colon) [chA] 0, []⟩ chA rfl

/-- C5 counterexample: callback `0` is subscribed to `"a"`, `sendLater "a"`
queues a unit, `removeAllSubscriptions` runs, and the drain then invokes
nothing — the claim that the enqueued unit still invokes the removed
callback is false on the code, because `removeAllSubscriptions` empties
the captured sets in place before dropping the record. -/
theorem sendLater_removeAll_cex :
    Ev.call 0 chA ∉
      drainAll (removeAllSys (sendLater ⟨onChannels (emptyBus colon) [chA] 0, []⟩ chA)) := by
  decide

/-! ### Independence of separate subscriptions -/

theorem subsOf_onChannel_self (st : BusState) (ch : Chan) (cb : CbId) (h : Inv st) :
    cb ∈ subsOf (onChannel st ch cb) ch := by
  unfold onChannel
  cases hl : lookupSub st.subs ch with
  | some i =>
    dsimp only
    have hi : i < st.sets.length := h.sidsLt _ (lookupSub_mem hl)
    by_cases hcb : cb ∈ getSet st.sets i
    · rw [if_pos hcb]
      simpa [subsOf, hl] using hcb
    · rw [if_neg hcb, subsOf_mk, hl]
      dsimp only
      rw [getSet_set_self _ _ _ hi]
      simp
  | none =>
    rw [subsOf_mk, lookupSub_append, hl]
    dsimp only
    rw [show lookupSub [(ch, st.sets.length)] ch = some st.sets.length from by
      simp [lookupSub]]
    dsimp only
    rw [getSet_append_self]
    simp

theorem subsOf_onChannel_mono (st : BusState) (ch2 : Chan) (cb2 : CbId) (ch : Chan)
    (cb : CbId) (h : Inv st) (hm : cb ∈ subsOf st ch) :
    cb ∈ subsOf (onChannel st ch2 cb2) ch := by
  unfold onChannel
  cases hl2 : lookupSub st.subs ch2 with
  | some i =>
    dsimp only
    have hi : i < st.sets.length := h.sidsLt _ (lookupSub_mem hl2)
    by_cases hcb : cb2 ∈ getSet st.sets i
    · rw [if_pos hcb]
      exact hm
    · rw [if_neg hcb, subsOf_mk]
      cases hl : lookupSub st.subs ch with
      | none =>
        simp [subsOf, hl] at hm
      | some j =>
        dsimp only
        have hsub : subsOf st ch = getSet st.sets j := by simp [subsOf, hl]
        by_cases hji : j = i
        · subst hji
          rw [getSet_set_self _ _ _ hi]
          exact List.mem_append_left _ (hsub ▸ hm)
        · rw [getSet_set_ne _ _ _ _ (Ne.symm hji)]
          exact hsub ▸ hm
  | none =>
    rw [subsOf_mk, lookupSub_append]
    cases hl : lookupSub st.subs ch with
    | none =>
      simp [subsOf, hl] at hm
    | some j =>
      dsimp only
      have hj : j < st.sets.length := h.sidsLt _ (lookupSub_mem hl)
      have hsub : subsOf st ch = getSet st.sets j := by simp [subsOf, hl]
      rw [getSet_append_lt _ _ _ hj]
      exact hsub ▸ hm

theorem subsOf_onChannels_mono (st : BusState) (chs2 : List Chan) (cb2 : CbId)
    (ch : Chan) (cb : CbId) (h : Inv st) (hm : cb ∈ subsOf st ch) :
    cb ∈ subsOf (onChannels st chs2 cb2) ch := by
  induction chs2 generalizing st with
  | nil => exact hm
  | cons c0 rest ih =>
    exact ih _ (inv_onChannel st c0 cb2 h) (subsOf_onChannel_mono st c0 cb2 ch cb h hm)

theorem mem_subsOf_onChannels (st : BusState) (chs : List Chan) (cb : CbId) (ch : Chan)
    (h : Inv st) (hm : ch ∈ chs) : cb ∈ subsOf (onChannels st chs cb) ch := by
  induction chs generalizing st with
  | nil => simp at hm
  | cons c0 rest ih =>
    show cb ∈ subsOf (onChannels (onChannel st c0 cb) rest cb) ch
    rcases List.mem_cons.mp hm with he | hmr
    · subst he
      exact subsOf_onChannels_mono _ rest cb ch cb (inv_onChannel st ch cb h)
        (subsOf_onChannel_self st ch cb h)
    · exact ih _ (inv_onChannel st c0 cb h) hmr

theorem call_mem_sendAndWait_of_subscribed (beh : CbId → CbBeh) (st : BusState)
    (c : Chan) (cb : CbId) (h : NoFail beh) (hm : cb ∈ subsOf st c) :
    Ev.call cb c ∈ (sendAndWait beh st c).1 := by
  rw [sendAndWait_noFail beh st c h]
  dsimp only
  unfold specTrace
  apply List.mem_flatMap.mpr
  refine ⟨c, ?_, ?_⟩
  · unfold activeListeners
    apply List.mem_filter.mpr
    refine ⟨?_, ?_⟩
    · unfold expandChannelsToListeners
      dsimp only
      by_cases hs : hasSub st.sep c = true
      · rw [if_pos hs]
        simp
      · rw [if_neg hs]
        simp
    · cases hcase : (subsOf st c).isEmpty
      · rfl
      · rw [List.isEmpty_iff.mp hcase] at hm
        simp at hm
  · unfold levelTrace
    exact List.mem_append_left _ (List.mem_map.mpr ⟨cb, hm, rfl⟩)

/-- C7 counterexample: the same callback `0` is subscribed by two separate
`on` calls to the same channel `"a"`; destroying the first subscription via
its handle also destroys the second (one `Set` slot per channel), so a
publish on `"a"` no longer invokes the callback, contradicting the claim
for overlapping channel lists. -/
theorem separate_subscriptions_cex :
    Ev.call 0 chA ∉
      (sendAndWait behSync
        (unsub (onChannels (onChannels (emptyBus colon) [chA] 0) [chA] 0) [chA] 0)
        chA).1 := by
  decide

/-- C7 (amended): destroying one of two separate subscriptions of the same
callback leaves the other intact *provided the two subscribe calls'
channel lists are disjoint*: for any channel of the surviving
subscription, the callback is still registered and a failure-free publish
on that channel still invokes it. (When the channel lists overlap, the
per-channel `Set` holds the callback once, so the destroyed handle removes
it from the shared channels — see the counterexample.) -/
theorem separate_subscriptions_disjoint (st : BusState) (chs1 chs2 : List Chan)
    (cb : CbId) (beh : CbId → CbBeh) (h : Inv st)
    (hd : ∀ ch ∈ chs2, ch ∉ chs1) (hbeh : NoFail beh) :
    ∀ ch ∈ chs2,
      cb ∈ subsOf (unsub (onChannels (onChannels st chs1 cb) chs2 cb) chs1 cb) ch
      ∧ Ev.call cb ch
          ∈ (sendAndWait beh
              (unsub (onChannels (onChannels st chs1 cb) chs2 cb) chs1 cb) ch).1 := by
  intro ch hm
  have h1 : Inv (onChannels st chs1 cb) := inv_onChannels st chs1 cb h
  have h2 : Inv (onChannels (onChannels st chs1 cb) chs2 cb) :=
    inv_onChannels _ chs2 cb h1
  have hmem : cb ∈ subsOf (onChannels (onChannels st chs1 cb) chs2 cb) ch :=
    mem_subsOf_onChannels _ chs2 cb ch h1 hm
  have hun : subsOf (unsub (onChannels (onChannels st chs1 cb) chs2 cb) chs1 cb) ch
      = subsOf (onChannels (onChannels st chs1 cb) chs2 cb) ch := by
    rw [subsOf_unsub _ _ _ h2 ch, if_neg (hd ch hm)]
  have hfinal : cb ∈ subsOf (unsub (onChannels (onChannels st chs1 cb) chs2 cb) chs1 cb) ch :=
    hun ▸ hmem
  exact ⟨hfinal, call_mem_sendAndWait_of_subscribed beh _ ch cb hbeh hfinal⟩

theorem separate_subscriptions_disjoint_witness :
    0 ∈ subsOf (unsub (onChannels (onChannels (emptyBus colon) [chA] 0) [chB] 0) [chA] 0) chB
    ∧ Ev.call 0 chB
        ∈ (sendAndWait behSync
            (unsub (onChannels (onChannels (emptyBus colon) [chA] 0) [chB] 0) [chA] 0)
            chB).1 :=
  separate_subscriptions_disjoint (emptyBus colon) [chA] [chB] 0 behSync
    (inv_emptyBus colon) (by decide) (fun _ => ⟨rfl, rfl⟩) chB (by decide)

/-! ### Failure semantics of `sendAndWait` -/

theorem runLevel_throwAt (beh : CbId → CbBeh) (c : Chan) (xs : List CbId) (bad : CbId)
    (ys : List CbId) (hxs : ∀ x ∈ xs, (beh x).syncThrows = false)
    (hbad : (beh bad).syncThrows = true) :
    runLevel beh c (xs ++ bad :: ys)
      = (xs.map (fun cb => Ev.call cb c) ++ [Ev.call bad c],
         xs.filter (fun cb => (beh cb).isAsync), true) := by
  induction xs with
  | nil => simp [runLevel, hbad]
  | cons x rest ih =>
    have hx : (beh x).syncThrows = false := hxs x (List.mem_cons_self _ _)
    rw [List.cons_append, runLevel, if_neg (by simp [hx]),
      ih (fun a ha => hxs a (List.mem_cons_of_mem _ ha))]
    by_cases hax : (beh x).isAsync = true
    · simp [List.filter_cons, hax]
    · simp [List.filter_cons, hax]

theorem runActive_append_clean (beh : CbId → CbBeh) (st : BusState) (c : Chan)
    (lpre rest : List Chan)
    (hclean : ∀ l ∈ lpre, ∀ cb ∈ subsOf st l,
      (beh cb).syncThrows = false ∧ (beh cb).asyncFails = false) :
    runActive beh st c (lpre ++ rest)
      = (lpre.flatMap (fun l => levelTrace beh c (subsOf st l))
          ++ (runActive beh st c rest).1,
         (runActive beh st c rest).2) := by
  induction lpre with
  | nil => simp
  | cons l0 lpre' ih =>
    have hc0 := hclean l0 (List.mem_cons_self _ _)
    rw [List.cons_append, runActive,
      runLevel_noThrow beh c _ (fun cb hcb => (hc0 cb hcb).1)]
    dsimp only
    have hany : ((subsOf st l0).filter (fun cb => (beh cb).isAsync)).any
        (fun cb => (beh cb).asyncFails) = false := by
      rw [List.any_eq_false]
      intro cb hcb
      simp [(hc0 cb (List.mem_of_mem_filter hcb)).2]
    rw [if_neg (by simp), if_neg (by simp [hany]),
      ih (fun l hl => hclean l (List.mem_cons_of_mem _ hl))]
    simp [levelTrace, List.append_assoc]

theorem runActive_cons_throw (beh : CbId → CbBeh) (st : BusState) (c : Chan)
    (l : Chan) (rest : List Chan) (xs : List CbId) (bad : CbId) (ys : List CbId)
    (hsplit : subsOf st l = xs ++ bad :: ys)
    (hxs : ∀ x ∈ xs, (beh x).syncThrows = false)
    (hbad : (beh bad).syncThrows = true) :
    runActive beh st c (l :: rest)
      = (xs.map (fun cb => Ev.call cb c) ++ [Ev.call bad c], false) := by
  rw [runActive, hsplit, runLevel_throwAt beh c xs bad ys hxs hbad]
  simp

theorem runActive_cons_asyncFail (beh : CbId → CbBeh) (st : BusState) (c : Chan)
    (l : Chan) (rest : List Chan)
    (hnothrow : ∀ cb ∈ subsOf st l, (beh cb).syncThrows = false)
    (hfail : ∃ cb ∈ subsOf st l, (beh cb).isAsync = true ∧ (beh cb).asyncFails = true) :
    runActive beh st c (l :: rest)
      = ((subsOf st l).map (fun cb => Ev.call cb c), false) := by
  rw [runActive, runLevel_noThrow beh c _ hnothrow]
  dsimp only
  obtain ⟨cb, hcb, ha, hf⟩ := hfail
  have hany : ((subsOf st l).filter (fun cb => (beh cb).isAsync)).any
      (fun cb => (beh cb).asyncFails) = true :=
    List.any_eq_true.mpr ⟨cb, List.mem_filter.mpr ⟨hcb, by simp [ha]⟩, by simp [hf]⟩
  rw [if_neg (by simp), if_pos hany]

theorem sendAndWait_eq_runActive (beh : CbId → CbBeh) (st : BusState) (c : Chan) :
    sendAndWait beh st c = runActive beh st c (activeListeners st c) := by
  rw [sendAndWait, runLevels_eq_runActive]
  rfl

/-- C8: in `sendAndWait`, a synchronous throw by a callback aborts the
dispatch at once — the remaining callbacks of that level and all later
expansion levels never run, and the operation rejects; likewise when a
collected deferred result of a level fails, the level's `Promise.all`
rejects and later levels are never reached. In both cases the awaited
trace consists of the earlier (clean) levels complete with their barriers,
followed by the invocations made at the failing level up to the abort. -/
theorem dispatch_failure_aborts (beh : CbId → CbBeh) (st : BusState) (c : Chan) :
    (∀ lpre l lpost xs bad ys,
      activeListeners st c = lpre ++ l :: lpost →
      (∀ l' ∈ lpre, ∀ cb ∈ subsOf st l',
        (beh cb).syncThrows = false ∧ (beh cb).asyncFails = false) →
      subsOf st l = xs ++ bad :: ys →
      (∀ x ∈ xs, (beh x).syncThrows = false) →
      (beh bad).syncThrows = true →
      sendAndWait beh st c
        = (lpre.flatMap (fun l' => levelTrace beh c (subsOf st l'))
            ++ (xs.map (fun cb => Ev.call cb c) ++ [Ev.call bad c]), false))
    ∧ (∀ lpre l lpost,
      activeListeners st c = lpre ++ l :: lpost →
      (∀ l' ∈ lpre, ∀ cb ∈ subsOf st l',
        (beh cb).syncThrows = false ∧ (beh cb).asyncFails = false) →
      (∀ cb ∈ subsOf st l, (beh cb).syncThrows = false) →
      (∃ cb ∈ subsOf st l, (beh cb).isAsync = true ∧ (beh cb).asyncFails = true) →
      sendAndWait beh st c
        = (lpre.flatMap (fun l' => levelTrace beh c (subsOf st l'))
            ++ (subsOf st l).map (fun cb => Ev.call cb c), false)) := by
  constructor
  · intro lpre l lpost xs bad ys heq hclean hsplit hxs hbad
    rw [sendAndWait_eq_runActive, heq, runActive_append_clean beh st c lpre _ hclean,
      runActive_cons_throw beh st c l lpost xs bad ys hsplit hxs hbad]
  · intro lpre l lpost heq hclean hnothrow hfail
    rw [sendAndWait_eq_runActive, heq, runActive_append_clean beh st c lpre _ hclean,
      runActive_cons_asyncFail beh st c l lpost hnothrow hfail]

theorem dispatch_failure_aborts_witness :
    sendAndWait behThrow1 stThrow chX
      = (([] : List Chan).flatMap (fun l' => levelTrace behThrow1 chX (subsOf stThrow l'))
          ++ ([0].map (fun cb => Ev.call cb chX) ++ [Ev.call 1 chX]), false)
    ∧ sendAndWait behFail3 stFail chY
      = (([] : List Chan).flatMap (fun l' => levelTrace behFail3 chY (subsOf stFail l'))
          ++ (subsOf stFail chY).map (fun cb => Ev.call cb chY), false) :=
  ⟨(dispatch_failure_aborts behThrow1 stThrow chX).1 [] chX [] [0] 1 [2]
    (by decide) (by decide) (by decide) (by decide) (by decide),
   (dispatch_failure_aborts behFail3 stFail chY).2 [] chY []
    (by decide) (by decide) (by decide) (by decide)⟩

/-! ### Publishing on the wildcard channel itself -/

theorem count_call_map (c : Chan) (cbs : List CbId) (cb : CbId) :
    (cbs.map (fun x => Ev.call x c)).count (Ev.call cb c) = cbs.count cb := by
  induction cbs with
  | nil => rfl
  | cons x rest ih =>
    simp only [List.map_cons, List.count_cons, ih]
    by_cases hx : x = cb
    · simp [hx]
    · simp [hx]

theorem count_call_settles (c : Chan) (l : List CbId) (cb : CbId) :
    (l.map Ev.settle).count (Ev.call cb c) = 0 := by
  rw [List.count_eq_zero]
  exact call_not_mem_settles cb c l

theorem count_call_levelTrace (beh : CbId → CbBeh) (c : Chan) (cbs : List CbId)
    (cb : CbId) :
    (levelTrace beh c cbs).count (Ev.call cb c) = cbs.count cb := by
  unfold levelTrace
  rw [List.count_append, count_call_map, count_call_settles]
  omega

/-- C10: publishing on the wildcard channel itself double-delivers: the
expander applied to `'*'` yields `['*', '*']` (and applied to a channel
whose base is `'*'`, such as `"*:x"`, a list containing `'*'` twice), so a
single failure-free `sendAndWait('*')` invokes every callback subscribed
to `'*'` exactly twice. -/
theorem star_double_delivery (st : BusState) (beh : CbId → CbBeh)
    (h1 : hasSub st.sep star = false) (hInv : Inv st) (h2 : NoFail beh) :
    expandChannelsToListeners st.sep star = [star, star]
    ∧ expandChannelsToListeners colon ("*:x".toList) = [("*:x".toList), star, star]
    ∧ ∀ cb ∈ subsOf st star,
        ((sendAndWait beh st star).1.count (Ev.call cb star)) = 2 := by
  refine ⟨by simp [expandChannelsToListeners, h1], by decide, ?_⟩
  intro cb hcb
  rw [sendAndWait_noFail beh st star h2]
  dsimp only
  have hne : (subsOf st star).isEmpty = false := by
    cases hcase : (subsOf st star).isEmpty
    · rfl
    · rw [List.isEmpty_iff.mp hcase] at hcb
      simp at hcb
  have hact : activeListeners st star = [star, star] := by
    unfold activeListeners
    rw [show expandChannelsToListeners st.sep star = [star, star] from by
      simp [expandChannelsToListeners, h1]]
    simp [List.filter_cons, hne]
  unfold specTrace
  rw [hact, List.flatMap_cons, List.flatMap_cons, List.flatMap_nil, List.append_nil,
    List.count_append, count_call_levelTrace]
  have hnodup : (subsOf st star).Nodup := by
    cases hl : lookupSub st.subs star with
    | none =>
      have : subsOf st star = [] := by simp [subsOf, hl]
      rw [this]
      exact List.nodup_nil
    | some i =>
      have := hInv.nodupSets _ (lookupSub_mem hl)
      simpa [subsOf, hl] using this
  rw [List.count_eq_one_of_mem hnodup hcb]

theorem star_double_delivery_witness :
    ((sendAndWait behSync stStar star).1.count (Ev.call 0 star)) = 2 :=
  (star_double_delivery stStar behSync (by decide)
    ⟨by decide, by decide, by decide, by decide, by decide⟩
    (fun _ => ⟨rfl, rfl⟩)).2.2 0 (by decide)

end Superbus
